import Mathlib

/-!
Verification of the Mandelbrot renderer (src/main.rs).

The development shallowly embeds the rendering core of the program:

* `Qplx` models `num::Complex<f64>` with exact rational coordinates.
  The embedding computes exactly where the source rounds each `f64`
  operation, so it supports the structural properties (escape-loop
  shape, buffer indexing, band partition — independent of the
  arithmetic) and the exactly-zero origin orbit, but it deliberately
  does not capture bit-exact properties of `f64` rounding; lemmas below
  that depend on exact field arithmetic say so in their doc comments.
* `escape_time` embeds `escape_time` (src/main.rs:23-32).
* `pixel_to_point` embeds `pixel_to_point` (src/main.rs:90-105).
* `calculate_rgb` embeds `calculate_rgb` (src/main.rs:129-148) over ℝ,
  with `castU8` modelling Rust's saturating `as u8` cast of an `f64`.
* `render` embeds `render` (src/main.rs:164-181) as a fold that writes
  each pixel of a row-major buffer in place.
* `renderParallel` embeds the banded pipeline of `main`
  (src/main.rs:221-241): chunk the buffer, recompute band corners with
  `pixel_to_point`, render every band, and reassemble.  The worker count
  (`threads`, hardcoded to 8 in the source) is kept as a parameter so
  that worker counts 1 and 8 can be compared.
-/

/-- Complex numbers with rational coordinates, modelling `num::Complex<f64>`
    from the `num` crate: componentwise addition, the usual product, and
    `norm_sqr z = re*re + im*im`. -/
structure Qplx where
  re : ℚ
  im : ℚ
deriving DecidableEq

/-- Complex addition, componentwise (num crate `Add for Complex`). -/
def Qplx.add (a b : Qplx) : Qplx := ⟨a.re + b.re, a.im + b.im⟩

/-- Complex multiplication (num crate `Mul for Complex`). -/
def Qplx.mul (a b : Qplx) : Qplx :=
  ⟨a.re * b.re - a.im * b.im, a.re * b.im + a.im * b.re⟩

instance : Add Qplx := ⟨Qplx.add⟩

instance : Mul Qplx := ⟨Qplx.mul⟩

/-- Squared magnitude, `Complex::norm_sqr` of the num crate. -/
def Qplx.norm_sqr (z : Qplx) : ℚ := z.re * z.re + z.im * z.im

@[simp] theorem Qplx.add_re (a b : Qplx) : (a + b).re = a.re + b.re := rfl

@[simp] theorem Qplx.add_im (a b : Qplx) : (a + b).im = a.im + b.im := rfl

@[simp] theorem Qplx.mul_re (a b : Qplx) : (a * b).re = a.re * b.re - a.im * b.im := rfl

@[simp] theorem Qplx.mul_im (a b : Qplx) : (a * b).im = a.re * b.im + a.im * b.re := rfl

theorem Qplx.ext {a b : Qplx} (hre : a.re = b.re) (him : a.im = b.im) : a = b := by
  cases a; cases b; simp_all

/-- Loop body of `escape_time` (src/main.rs:25-30): iterate `z = z*z + c`
    at most `fuel` more times, `i` being the 0-based index of the next
    application; return `some i` at the first application whose squared
    magnitude exceeds 4, `none` if the fuel runs out. -/
def escapeGo (c : Qplx) : ℕ → Qplx → ℕ → Option ℕ
  | 0, _, _ => none
  | fuel + 1, z, i =>
    let z2 := z * z + c
    if 4 < z2.norm_sqr then some i else escapeGo c fuel z2 (i + 1)

/-- `escape_time` (src/main.rs:23-32): starting from `z = 0`, run the loop
    for at most `limit` iterations. -/
def escape_time (c : Qplx) (limit : ℕ) : Option ℕ := escapeGo c limit ⟨0, 0⟩ 0

/-- The orbit of the quadratic map: `zIter c n` is `z` after `n`
    applications of `z ← z*z + c` starting from `z = 0`. -/
def zIter (c : Qplx) : ℕ → Qplx
  | 0 => ⟨0, 0⟩
  | n + 1 => zIter c n * zIter c n + c

theorem escapeGo_some_iff (c : Qplx) : ∀ (fuel i k : ℕ),
    (escapeGo c fuel (zIter c i) i = some k ↔
      i ≤ k ∧ k < i + fuel ∧ 4 < (zIter c (k + 1)).norm_sqr ∧
        ∀ j, i ≤ j → j < k → (zIter c (j + 1)).norm_sqr ≤ 4) := by
  intro fuel
  induction fuel with
  | zero =>
    intro i k
    simp only [escapeGo]
    constructor
    · intro h; exact absurd h (by simp)
    · rintro ⟨h1, h2, -⟩; omega
  | succ n ih =>
    intro i k
    have hz : zIter c i * zIter c i + c = zIter c (i + 1) := rfl
    simp only [escapeGo, hz]
    by_cases hesc : 4 < (zIter c (i + 1)).norm_sqr
    · simp only [hesc, if_true]
      constructor
      · intro h
        have hk : k = i := by simpa using h.symm
        subst hk
        exact ⟨le_refl _, by omega, hesc, fun j h1 h2 => by omega⟩
      · rintro ⟨h1, h2, h3, h4⟩
        have : k = i := by
          by_contra hne
          have hik : i < k := lt_of_le_of_ne h1 (Ne.symm hne)
          exact absurd hesc (not_lt.mpr (h4 i (le_refl _) hik))
        simp [this]
    · simp only [hesc, if_false]
      rw [ih (i + 1) k]
      constructor
      · rintro ⟨h1, h2, h3, h4⟩
        refine ⟨by omega, by omega, h3, fun j hj1 hj2 => ?_⟩
        rcases Nat.eq_or_lt_of_le hj1 with rfl | hlt
        · exact not_lt.mp hesc
        · exact h4 j hlt hj2
      · rintro ⟨h1, h2, h3, h4⟩
        have hik : i + 1 ≤ k := by
          rcases Nat.eq_or_lt_of_le h1 with rfl | hlt
          · exact absurd h3 hesc
          · exact hlt
        exact ⟨hik, by omega, h3, fun j hj1 hj2 => h4 j (by omega) hj2⟩

theorem escapeGo_none_iff (c : Qplx) : ∀ (fuel i : ℕ),
    (escapeGo c fuel (zIter c i) i = none ↔
      ∀ j, i ≤ j → j < i + fuel → (zIter c (j + 1)).norm_sqr ≤ 4) := by
  intro fuel
  induction fuel with
  | zero =>
    intro i
    simp only [escapeGo]
    constructor
    · intro _ j h1 h2; omega
    · intro _; trivial
  | succ n ih =>
    intro i
    have hz : zIter c i * zIter c i + c = zIter c (i + 1) := rfl
    simp only [escapeGo, hz]
    by_cases hesc : 4 < (zIter c (i + 1)).norm_sqr
    · simp only [hesc, if_true]
      constructor
      · intro h; exact absurd h (by simp)
      · intro h
        exact absurd hesc (not_lt.mpr (h i (le_refl _) (by omega)))
    · simp only [hesc, if_false]
      rw [ih (i + 1)]
      constructor
      · intro h j hj1 hj2
        rcases Nat.eq_or_lt_of_le hj1 with rfl | hlt
        · exact not_lt.mp hesc
        · exact h j hlt (by omega)
      · intro h j hj1 hj2
        exact h j (by omega) (by omega)

/-- C8: `escape_time c limit` returns `some i` exactly when the `i`-th
    application (0-based) of `z ← z*z + c` starting from `z = 0` is the
    first one whose squared magnitude exceeds 4, with `i < limit`; it
    returns `none` exactly when no application among the first `limit`
    exceeds the threshold. -/
theorem escape_time_spec (c : Qplx) (limit : ℕ) :
    (∀ i, escape_time c limit = some i ↔
      i < limit ∧ 4 < (zIter c (i + 1)).norm_sqr ∧
        ∀ j < i, (zIter c (j + 1)).norm_sqr ≤ 4) ∧
    (escape_time c limit = none ↔ ∀ j < limit, (zIter c (j + 1)).norm_sqr ≤ 4) := by
  have h0 : (⟨0, 0⟩ : Qplx) = zIter c 0 := rfl
  constructor
  · intro i
    rw [escape_time, h0, escapeGo_some_iff c limit 0 i]
    constructor
    · rintro ⟨-, h2, h3, h4⟩
      exact ⟨by omega, h3, fun j hj => h4 j (Nat.zero_le _) hj⟩
    · rintro ⟨h1, h2, h3⟩
      exact ⟨Nat.zero_le _, by omega, h2, fun j _ hj => h3 j hj⟩
  · rw [escape_time, h0, escapeGo_none_iff c limit 0]
    constructor
    · intro h j hj; exact h j (Nat.zero_le _) (by omega)
    · intro h j _ hj; exact h j (by omega)

/-- C8 witness: the characterization instantiated at the concrete input
    `c = 3 + 0i`, `limit = 2`. -/
theorem escape_time_spec_witness :
    (∀ i, escape_time ⟨3, 0⟩ 2 = some i ↔
      i < 2 ∧ 4 < (zIter ⟨3, 0⟩ (i + 1)).norm_sqr ∧
        ∀ j < i, (zIter ⟨3, 0⟩ (j + 1)).norm_sqr ≤ 4) ∧
    (escape_time ⟨3, 0⟩ 2 = none ↔ ∀ j < 2, (zIter ⟨3, 0⟩ (j + 1)).norm_sqr ≤ 4) :=
  escape_time_spec ⟨3, 0⟩ 2

/-- C9: raising the iteration cap never changes an already-found finite
    escape result. -/
theorem escape_time_stable (c : Qplx) (L L' i : ℕ)
    (h : escape_time c L = some i) (hL : i + 1 ≤ L') :
    escape_time c L' = some i := by
  obtain ⟨h1, h2, h3⟩ := ((escape_time_spec c L).1 i).mp h
  exact ((escape_time_spec c L').1 i).mpr ⟨by omega, h2, h3⟩

/-- C9 witness: `c = 3 + 0i` escapes at index 0 with cap 1, and still
    escapes at index 0 with the larger cap 3. -/
theorem escape_time_stable_witness :
    escape_time ⟨3, 0⟩ 1 = some 0 ∧ 0 + 1 ≤ 3 ∧ escape_time ⟨3, 0⟩ 3 = some 0 := by
  have h : escape_time ⟨3, 0⟩ 1 = some 0 := by
    simp [escape_time, escapeGo, Qplx.norm_sqr]
    norm_num
  exact ⟨h, by decide, escape_time_stable ⟨3, 0⟩ 1 3 0 h (by decide)⟩

theorem zIter_origin (n : ℕ) : zIter ⟨0, 0⟩ n = ⟨0, 0⟩ := by
  induction n with
  | zero => rfl
  | succ k ih => simp only [zIter, ih]; exact Qplx.ext (by simp) (by simp)

/-- Shared fact: the origin never escapes, whatever the cap. -/
theorem escape_time_origin_eq (limit : ℕ) : escape_time ⟨0, 0⟩ limit = none := by
  refine ((escape_time_spec ⟨0, 0⟩ limit).2).mpr fun j _ => ?_
  rw [zIter_origin]
  norm_num [Qplx.norm_sqr]

/-- C10: for every positive limit, `escape_time` classifies the origin
    `0 + 0i` as bounded. -/
theorem escape_time_origin (limit : ℕ) (_h : 0 < limit) :
    escape_time ⟨0, 0⟩ limit = none :=
  escape_time_origin_eq limit

/-- C10 witness: the origin is bounded at the concrete limit 255. -/
theorem escape_time_origin_witness :
    0 < 255 ∧ escape_time ⟨0, 0⟩ 255 = none :=
  ⟨by decide, escape_time_origin 255 (by decide)⟩

/-- `pixel_to_point` (src/main.rs:90-105): affine map from a
    `(column, row)` pixel of a `(width, height)` image to the complex
    plane window spanned by `upper_left` and `lower_right`. -/
def pixel_to_point (bounds : ℕ × ℕ) (pixel : ℕ × ℕ)
    (upper_left lower_right : Qplx) : Qplx :=
  let width := lower_right.re - upper_left.re
  let height := upper_left.im - lower_right.im
  ⟨upper_left.re + (pixel.1 : ℚ) * width / (bounds.1 : ℚ),
   upper_left.im - (pixel.2 : ℚ) * height / (bounds.2 : ℚ)⟩

/-- Corner exactness of the affine map over the exact-rational
    embedding: the pixel `(0,0)` maps to `upper_left` and the pixel
    `(width, height)` maps to `lower_right`, for any window.  This is a
    property of the idealized (exactly computed) map only: the source
    computes each operation in `f64`, where the `(width, height)` corner
    is not exact for every window (e.g. `ul.re = 1.0`,
    `lr.re = 1e-300`: the span rounds to `-1.0` and the corner maps to
    `0.0`), so this lemma is not offered as a verification of the
    bit-exact guarantee. -/
theorem pixel_to_point_corners (W h : ℕ) (hW : 0 < W) (hh : 0 < h)
    (ul lr : Qplx) :
    pixel_to_point (W, h) (0, 0) ul lr = ul ∧
    pixel_to_point (W, h) (W, h) ul lr = lr := by
  have hW0 : (W : ℚ) ≠ 0 := Nat.cast_ne_zero.mpr (by omega)
  have hh0 : (h : ℚ) ≠ 0 := Nat.cast_ne_zero.mpr (by omega)
  constructor
  · exact Qplx.ext (by simp [pixel_to_point]) (by simp [pixel_to_point])
  · refine Qplx.ext ?_ ?_
    · show ul.re + (W : ℚ) * (lr.re - ul.re) / (W : ℚ) = lr.re
      field_simp
    · show ul.im - (h : ℚ) * (ul.im - lr.im) / (h : ℚ) = lr.im
      field_simp


/-- Rows per band computed by the scheduler (src/main.rs:224):
    `bounds.1 / threads + 1`, i.e. floor division plus one. -/
def rows_per_band (height threads : ℕ) : ℕ := height / threads + 1

/-- C2 counterexample: at `height = 8`, `threads = 8` the code computes
    2 rows per band while `ceil(8 / 8) = 1`. -/
theorem rows_per_band_ne_ceil : ¬ rows_per_band 8 8 = (8 + 8 - 1) / 8 := by decide

/-- C2 (amended): the scheduler computes `height / threads + 1` rows per
    band; this equals `ceil(height / threads)` exactly when `threads`
    does not divide `height`, and overshoots it by one otherwise. -/
theorem rows_per_band_eq (h w : ℕ) (hw : 0 < w) :
    rows_per_band h w = h / w + 1 ∧
    (¬ w ∣ h → rows_per_band h w = (h + w - 1) / w) ∧
    (w ∣ h → rows_per_band h w = (h + w - 1) / w + 1 ∨ (h = 0 ∧ rows_per_band h w = 1)) := by
  have hrw : h + w - 1 = h + (w - 1) := by omega
  have h1 : (w - 1) / w = 0 := Nat.div_eq_of_lt (by omega)
  have h2 : (w - 1) % w = w - 1 := Nat.mod_eq_of_lt (by omega)
  refine ⟨rfl, fun hnd => ?_, fun hd => ?_⟩
  · have hmod : h % w ≠ 0 := fun hc => hnd (Nat.dvd_of_mod_eq_zero hc)
    have h3 : 1 ≤ h % w := Nat.pos_of_ne_zero hmod
    have hcond : w ≤ h % w + (w - 1) := by
      calc w = 1 + (w - 1) := by omega
        _ ≤ h % w + (w - 1) := Nat.add_le_add_right h3 _
    rw [rows_per_band, hrw, Nat.add_div hw, h1, h2, if_pos hcond]
  · rcases Nat.eq_zero_or_pos h with rfl | hpos
    · right; exact ⟨rfl, by simp [rows_per_band]⟩
    · left
      have hmod : h % w = 0 := Nat.mod_eq_zero_of_dvd hd
      have hcond : ¬ w ≤ h % w + (w - 1) := by rw [hmod]; omega
      rw [rows_per_band, hrw, Nat.add_div hw, h1, h2, if_neg hcond]

/-- C2 witness: at `height = 3`, `threads = 2` (non-dividing case) the
    code's 2 rows per band agree with `ceil(3 / 2) = 2`. -/
theorem rows_per_band_eq_witness :
    0 < 2 ∧
    (rows_per_band 3 2 = 3 / 2 + 1 ∧
     (¬ 2 ∣ 3 → rows_per_band 3 2 = (3 + 2 - 1) / 2) ∧
     (2 ∣ 3 → rows_per_band 3 2 = (3 + 2 - 1) / 2 + 1 ∨ (3 = 0 ∧ rows_per_band 3 2 = 1))) :=
  ⟨by decide, rows_per_band_eq 3 2 (by decide)⟩

/-- Chunking of a buffer into consecutive sub-slices of `k` elements, the
    last chunk taking whatever remains; models `slice::chunks_mut(k)`
    (src/main.rs:227).  (`chunks_mut` panics on `k = 0`; that case is
    mapped to the empty chunk list and never used.) -/
def chunksList {α : Type} (k : ℕ) (l : List α) : List (List α) :=
  if l.isEmpty ∨ k = 0 then [] else l.take k :: chunksList k (l.drop k)
termination_by l.length
decreasing_by
  rename_i h
  rw [not_or] at h
  have h1 : l ≠ [] := fun hc => h.1 (by simp [hc])
  have h2 : k ≠ 0 := h.2
  have : 0 < l.length := List.length_pos.mpr h1
  simp only [List.length_drop]
  omega

theorem chunksList_nil {α : Type} (k : ℕ) : chunksList k ([] : List α) = [] := by
  rw [chunksList]; simp

theorem chunksList_cons {α : Type} (k : ℕ) (l : List α) (hl : l ≠ []) (hk : k ≠ 0) :
    chunksList k l = l.take k :: chunksList k (l.drop k) := by
  rw [chunksList]
  have : l.isEmpty = false := by simp [hl]
  simp [this, hk]

theorem chunksList_flatten_aux {α : Type} (k : ℕ) (hk : k ≠ 0) :
    ∀ (n : ℕ) (l : List α), l.length ≤ n → (chunksList k l).flatten = l := by
  intro n
  induction n with
  | zero =>
    intro l hl
    have : l = [] := List.eq_nil_of_length_eq_zero (by omega)
    subst this
    simp [chunksList_nil]
  | succ n ih =>
    intro l hl
    rcases eq_or_ne l [] with rfl | hne
    · simp [chunksList_nil]
    · have hlen : 0 < l.length := List.length_pos.mpr hne
      rw [chunksList_cons k l hne hk, List.flatten_cons,
        ih (l.drop k) (by simp only [List.length_drop]; omega)]
      exact List.take_append_drop k l

/-- Concatenating the chunks gives back the original buffer. -/
theorem chunksList_flatten {α : Type} (k : ℕ) (hk : k ≠ 0) (l : List α) :
    (chunksList k l).flatten = l :=
  chunksList_flatten_aux k hk l.length l (le_refl _)

/-- Rust's saturating `f64 as u8` cast for a real value: truncate toward
    zero and saturate into `[0, 255]` (Rust reference, float-to-int `as`
    casts). -/
noncomputable def castU8 (x : ℝ) : ℕ :=
  if x ≤ 0 then 0 else if (255 : ℝ) ≤ x then 255 else Int.toNat ⌊x⌋

/-- Gaussian probability density (probability crate,
    `Gaussian::new(mu, sigma).density(x)`):
    `exp(-(x-mu)^2 / (2 sigma^2)) / (sigma * sqrt(2 pi))`. -/
noncomputable def gaussianDensity (mu sigma x : ℝ) : ℝ :=
  Real.exp (-((x - mu) ^ 2 / (2 * sigma ^ 2))) / (sigma * Real.sqrt (2 * Real.pi))

/-- `fwhm` of `calculate_rgb` (src/main.rs:130). -/
noncomputable def fwhmOf (limit : ℕ) : ℝ := (limit : ℝ) / 2

/-- `sigma` of `calculate_rgb` (src/main.rs:131): FWHM to standard
    deviation via the constant 2.3548. -/
noncomputable def sigmaOf (limit : ℕ) : ℝ := fwhmOf limit / 2.3548

/-- `base_point_blue` (src/main.rs:133). -/
noncomputable def basePointBlue (limit : ℕ) : ℝ := (limit : ℝ) / 6

/-- `base_point_green` (src/main.rs:134). -/
noncomputable def basePointGreen (limit : ℕ) : ℝ := basePointBlue limit + (limit : ℝ) / 3

/-- `base_point_red` (src/main.rs:135). -/
noncomputable def basePointRed (limit : ℕ) : ℝ := basePointGreen limit + (limit : ℝ) / 3

/-- `scale` of `calculate_rgb` (src/main.rs:141):
    `limit * sqrt(2 pi sigma^2)`. -/
noncomputable def scaleOf (limit : ℕ) : ℝ :=
  (limit : ℝ) * Real.sqrt (2 * Real.pi * sigmaOf limit ^ 2)

/-- A pixel: one RGB triple, each channel an 8-bit value modelled as ℕ. -/
abbrev Pixel := ℕ × ℕ × ℕ

/-- `calculate_rgb` (src/main.rs:129-148): evaluate the three Gaussian
    densities at `value`, multiply by the shared scale, and cast each
    channel to `u8`. -/
noncomputable def calculate_rgb (limit : ℕ) (value : ℝ) : Pixel :=
  (castU8 (scaleOf limit * gaussianDensity (basePointRed limit) (sigmaOf limit) value),
   castU8 (scaleOf limit * gaussianDensity (basePointGreen limit) (sigmaOf limit) value),
   castU8 (scaleOf limit * gaussianDensity (basePointBlue limit) (sigmaOf limit) value))

/-- The spec's required channel post-processing, following its words:
    clamp the scaled density to `[0, 255]` first, then truncate to an
    integer. -/
noncomputable def specClampTruncate (x : ℝ) : ℕ := Int.toNat ⌊min 255 (max 0 x)⌋

theorem castU8_eq_specClampTruncate (x : ℝ) : castU8 x = specClampTruncate x := by
  rw [castU8, specClampTruncate]
  rcases le_or_lt x 0 with hx0 | hx0
  · rw [if_pos hx0, max_eq_left hx0, min_eq_right (by norm_num : (0:ℝ) ≤ 255)]
    simp
  · rw [if_neg (not_le.mpr hx0), max_eq_right hx0.le]
    rcases le_or_lt 255 x with hx255 | hx255
    · rw [if_pos hx255, min_eq_left hx255]
      norm_num
      rfl
    · rw [if_neg (not_le.mpr hx255), min_eq_right hx255.le]

theorem castU8_le (x : ℝ) : castU8 x ≤ 255 := by
  rw [castU8]
  rcases le_or_lt x 0 with hx0 | hx0
  · simp [hx0]
  · rw [if_neg (not_le.mpr hx0)]
    rcases le_or_lt 255 x with hx255 | hx255
    · simp [hx255]
    · rw [if_neg (not_le.mpr hx255)]
      have h1 : ⌊x⌋ ≤ 255 := by
        have := Int.floor_le_floor (le_of_lt hx255)
        simpa using this.trans_eq (by norm_num)
      omega

/-- C7: each channel of `calculate_rgb` is exactly the scaled Gaussian
    density clamped to `[0, 255]` and then truncated, and every returned
    channel lies in `[0, 255]` — no wrap-around for out-of-range values. -/
theorem calculate_rgb_clamped (limit : ℕ) (value : ℝ) :
    calculate_rgb limit value =
      (specClampTruncate (scaleOf limit * gaussianDensity (basePointRed limit) (sigmaOf limit) value),
       specClampTruncate (scaleOf limit * gaussianDensity (basePointGreen limit) (sigmaOf limit) value),
       specClampTruncate (scaleOf limit * gaussianDensity (basePointBlue limit) (sigmaOf limit) value)) ∧
    (calculate_rgb limit value).1 ≤ 255 ∧
    (calculate_rgb limit value).2.1 ≤ 255 ∧
    (calculate_rgb limit value).2.2 ≤ 255 := by
  refine ⟨?_, castU8_le _, castU8_le _, castU8_le _⟩
  rw [calculate_rgb, castU8_eq_specClampTruncate, castU8_eq_specClampTruncate,
    castU8_eq_specClampTruncate]

/-- Per-pixel color in `render` (src/main.rs:175-178): bounded points get
    the fixed background `(40, 40, 40)`, escaped points go through
    `calculate_rgb` with the escape count cast to a float. -/
noncomputable def colorAt (bounds : ℕ × ℕ) (pixel : ℕ × ℕ)
    (upper_left lower_right : Qplx) : Pixel :=
  match escape_time (pixel_to_point bounds pixel upper_left lower_right) 255 with
  | none => (40, 40, 40)
  | some count => calculate_rgb 255 (count : ℝ)

/-- `render` (src/main.rs:164-181): for every row and column of `bounds`,
    write the pixel's color at row-major index `row * width + column` into
    the buffer, with the iteration limit hardcoded to 255. -/
noncomputable def render (pixels : List Pixel) (bounds : ℕ × ℕ)
    (upper_left lower_right : Qplx) : List Pixel :=
  (List.range bounds.2).foldl (fun buf row =>
    (List.range bounds.1).foldl (fun buf2 column =>
      buf2.set (row * bounds.1 + column)
        (colorAt bounds (column, row) upper_left lower_right)) buf) pixels

/-- One row of output pixels, in column order. -/
noncomputable def rowPixels (bounds : ℕ × ℕ) (upper_left lower_right : Qplx)
    (row : ℕ) : List Pixel :=
  (List.range bounds.1).map fun column => colorAt bounds (column, row) upper_left lower_right

/-- The rows of the rendered image, concatenated in row-major order. -/
noncomputable def flatRender (bounds : ℕ × ℕ) (upper_left lower_right : Qplx) : List Pixel :=
  (List.range bounds.2).flatMap (rowPixels bounds upper_left lower_right)

theorem foldl_set_row (v : ℕ → Pixel) (buf : List Pixel) (base : ℕ) :
    ∀ n, base + n ≤ buf.length →
      (List.range n).foldl (fun b column => b.set (base + column) (v column)) buf
        = buf.take base ++ (List.range n).map v ++ buf.drop (base + n) := by
  intro n
  induction n with
  | zero => simpa using (List.take_append_drop base buf).symm
  | succ n ih =>
    intro hn
    have hlt : base + n < buf.length := by omega
    have htake : (buf.take base).length = base := by
      rw [List.length_take]; omega
    have hmap : ((List.range n).map v).length = n := by simp
    rw [List.range_succ, List.foldl_append, ih (by omega)]
    simp only [List.foldl_cons, List.foldl_nil]
    rw [List.append_assoc, List.set_append, htake, if_neg (by omega)]
    have hidx : base + n - base = n := by omega
    rw [hidx, List.set_append, hmap, if_neg (by omega)]
    have hidx2 : n - n = 0 := by omega
    rw [hidx2, List.drop_eq_getElem_cons hlt, List.set_cons_zero]
    rw [show base + (n + 1) = base + n + 1 by omega]
    simp [List.range_succ, List.append_assoc]

theorem rowPixels_length (bounds : ℕ × ℕ) (ul lr : Qplx) (row : ℕ) :
    (rowPixels bounds ul lr row).length = bounds.1 := by
  simp [rowPixels]

theorem flatMap_rowPixels_length (bounds : ℕ × ℕ) (ul lr : Qplx) (n : ℕ) :
    ((List.range n).flatMap (rowPixels bounds ul lr)).length = n * bounds.1 := by
  induction n with
  | zero => simp
  | succ n ih =>
    rw [List.range_succ, List.flatMap_append]
    simp [ih, rowPixels_length, Nat.succ_mul]

theorem render_loop_rows (W m : ℕ) (ul lr : Qplx) (buf : List Pixel)
    (hlen : buf.length = W * m) :
    ∀ n, n ≤ m →
      (List.range n).foldl (fun b row =>
        (List.range W).foldl (fun b2 column =>
          b2.set (row * W + column) (colorAt (W, m) (column, row) ul lr)) b) buf
        = (List.range n).flatMap (rowPixels (W, m) ul lr) ++ buf.drop (W * n) := by
  intro n
  induction n with
  | zero => simp
  | succ n ih =>
    intro hn
    rw [List.range_succ, List.foldl_append, ih (by omega)]
    simp only [List.foldl_cons, List.foldl_nil]
    set flat := (List.range n).flatMap (rowPixels (W, m) ul lr) with hflat
    have hflatlen : flat.length = n * W := by
      rw [hflat, flatMap_rowPixels_length]
    have hcomm : W * n = n * W := Nat.mul_comm W n
    have hle : W * n ≤ W * m := Nat.mul_le_mul_left W (by omega)
    have hle2 : W * (n + 1) ≤ W * m := Nat.mul_le_mul_left W hn
    have hdistr : W * (n + 1) = W * n + W := by ring
    have hlen2 : (flat ++ buf.drop (W * n)).length = W * m := by
      simp only [List.length_append, hflatlen, List.length_drop, hlen]
      omega
    have hbound : n * W + W ≤ (flat ++ buf.drop (W * n)).length := by
      rw [hlen2]; omega
    rw [foldl_set_row (fun column => colorAt (W, m) (column, n) ul lr)
      (flat ++ buf.drop (W * n)) (n * W) W hbound]
    have htake : (flat ++ buf.drop (W * n)).take (n * W) = flat := by
      rw [← hflatlen, List.take_left]
    have hdrop : (flat ++ buf.drop (W * n)).drop (n * W + W) = buf.drop (W * (n + 1)) := by
      have h1 : n * W + W = flat.length + W := by omega
      rw [h1, List.drop_append, List.drop_drop]
      have h2 : W * n + W = W * (n + 1) := by ring
      rw [h2]
    rw [htake, hdrop]
    have hrow : (List.range W).map (fun column => colorAt (W, m) (column, n) ul lr)
        = rowPixels (W, m) ul lr n := rfl
    rw [hrow]
    simp [hflat, List.range_succ, List.flatMap_append, List.append_assoc]

/-- `render` is the row-major concatenation of its rows: the fold of
    in-place writes produces exactly the flat row-by-row image. -/
theorem render_eq_flatRender (W m : ℕ) (ul lr : Qplx) (buf : List Pixel)
    (hlen : buf.length = W * m) :
    render buf (W, m) ul lr = flatRender (W, m) ul lr := by
  rw [render, flatRender]
  have := render_loop_rows W m ul lr buf hlen m (le_refl m)
  simp only at this ⊢
  rw [this]
  have : buf.drop (W * m) = [] := List.drop_eq_nil_of_le (by omega)
  simp [this]

theorem flatMap_uniform_getElem (f : ℕ → List Pixel) (W : ℕ)
    (hf : ∀ i, (f i).length = W) :
    ∀ (n s r c : ℕ), r < n → c < W →
      ((List.range' s n).flatMap f)[r * W + c]? = (f (s + r))[c]? := by
  intro n
  induction n with
  | zero => intro s r c hr; omega
  | succ n ih =>
    intro s r c hr hc
    rw [List.range'_succ, List.flatMap_cons]
    cases r with
    | zero =>
      rw [List.getElem?_append_left (by rw [hf]; simpa using hc)]
      simp
    | succ r =>
      have hge : (f s).length ≤ (r + 1) * W + c := by
        rw [hf]
        have : W ≤ (r + 1) * W := Nat.le_mul_of_pos_left W (by omega)
        omega
      rw [List.getElem?_append_right hge, hf]
      have hidx : (r + 1) * W + c - W = r * W + c := by
        have : (r + 1) * W = r * W + W := by ring
        omega
      rw [hidx, ih (s + 1) r c (by omega) hc]
      have : s + 1 + r = s + (r + 1) := by omega
      rw [this]

/-- C5: after `render` fills a buffer of length `width * height`, the
    entry at row-major index `r * width + c` is the background color
    `(40, 40, 40)` when the pixel's point is bounded (never consulting
    `calculate_rgb`), and `calculate_rgb 255 i` when the point escapes at
    iteration `i`. -/
theorem render_pixel (W m r c : ℕ) (buf : List Pixel) (ul lr : Qplx)
    (hlen : buf.length = W * m) (hr : r < m) (hc : c < W) :
    (escape_time (pixel_to_point (W, m) (c, r) ul lr) 255 = none →
      (render buf (W, m) ul lr)[r * W + c]? = some ((40, 40, 40) : Pixel)) ∧
    (∀ i, escape_time (pixel_to_point (W, m) (c, r) ul lr) 255 = some i →
      (render buf (W, m) ul lr)[r * W + c]? = some (calculate_rgb 255 (i : ℝ))) := by
  have hmain : (render buf (W, m) ul lr)[r * W + c]? = some (colorAt (W, m) (c, r) ul lr) := by
    rw [render_eq_flatRender W m ul lr buf hlen, flatRender, List.range_eq_range',
      flatMap_uniform_getElem (rowPixels (W, m) ul lr) W
        (fun i => rowPixels_length (W, m) ul lr i) m 0 r c hr hc]
    rw [rowPixels, List.getElem?_map, List.getElem?_range hc]
    simp
  constructor
  · intro h
    rw [hmain, colorAt, h]
  · intro i h
    rw [hmain, colorAt, h]

/-- C5 witness: the 1×1 render of the window collapsed onto the origin,
    whose single pixel is bounded and therefore background-colored. -/
theorem render_pixel_witness :
    ([((0, 0, 0) : Pixel)].length = 1 * 1) ∧ 0 < 1 ∧ 0 < 1 ∧
    ((escape_time (pixel_to_point (1, 1) (0, 0) ⟨0, 0⟩ ⟨0, 0⟩) 255 = none →
      (render [((0, 0, 0) : Pixel)] (1, 1) ⟨0, 0⟩ ⟨0, 0⟩)[0 * 1 + 0]? =
        some ((40, 40, 40) : Pixel)) ∧
    (∀ i, escape_time (pixel_to_point (1, 1) (0, 0) ⟨0, 0⟩ ⟨0, 0⟩) 255 = some i →
      (render [((0, 0, 0) : Pixel)] (1, 1) ⟨0, 0⟩ ⟨0, 0⟩)[0 * 1 + 0]? =
        some (calculate_rgb 255 (i : ℝ)))) :=
  ⟨by simp, by decide, by decide,
    render_pixel 1 1 0 0 [((0, 0, 0) : Pixel)] ⟨0, 0⟩ ⟨0, 0⟩ (by simp) (by decide) (by decide)⟩

/-- Banded parallel pipeline of `main` (src/main.rs:221-241): allocate a
    zeroed `width * height` buffer, chunk it into bands of
    `rows_per_band * width` pixels, recompute each band's corners with
    `pixel_to_point` at row offsets `top` and `top + height`, render every
    band on its own slice, and reassemble the buffer. -/
noncomputable def renderParallel (bounds : ℕ × ℕ) (upper_left lower_right : Qplx)
    (threads : ℕ) : List Pixel :=
  let pixels : List Pixel := List.replicate (bounds.1 * bounds.2) (0, 0, 0)
  let rpb := rows_per_band bounds.2 threads
  let bands := chunksList (rpb * bounds.1) pixels
  (bands.enum.map fun p =>
    let top := rpb * p.1
    let height := p.2.length / bounds.1
    let band_bounds := (bounds.1, height)
    let band_upper_left := pixel_to_point bounds (0, top) upper_left lower_right
    let band_lower_right := pixel_to_point bounds (bounds.1, top + height) upper_left lower_right
    render p.2 band_bounds band_upper_left band_lower_right).flatten

/-- Composing the band-corner recomputation with the per-band affine map
    gives exactly the whole-image affine map: the pixel `(c, r)` of the
    band starting at row `top` lands on the same plane point as the pixel
    `(c, top + r)` of the full image. -/
theorem pixel_to_point_band (W h mb top : ℕ) (hW : W ≠ 0) (hh : h ≠ 0) (hmb : mb ≠ 0)
    (ul lr : Qplx) (c r : ℕ) :
    pixel_to_point (W, mb) (c, r)
      (pixel_to_point (W, h) (0, top) ul lr)
      (pixel_to_point (W, h) (W, top + mb) ul lr)
    = pixel_to_point (W, h) (c, top + r) ul lr := by
  have hW0 : (W : ℚ) ≠ 0 := Nat.cast_ne_zero.mpr hW
  have hh0 : (h : ℚ) ≠ 0 := Nat.cast_ne_zero.mpr hh
  have hmb0 : (mb : ℚ) ≠ 0 := Nat.cast_ne_zero.mpr hmb
  refine Qplx.ext ?_ ?_ <;>
    simp only [pixel_to_point] <;> push_cast <;> field_simp <;> ring

theorem rowPixels_band (W h mb top : ℕ) (hW : W ≠ 0) (hh : h ≠ 0) (hmb : mb ≠ 0)
    (ul lr : Qplx) (r : ℕ) :
    rowPixels (W, mb)
      (pixel_to_point (W, h) (0, top) ul lr)
      (pixel_to_point (W, h) (W, top + mb) ul lr) r
    = rowPixels (W, h) ul lr (top + r) := by
  rw [rowPixels, rowPixels]
  have : (fun column => colorAt (W, mb) (column, r)
      (pixel_to_point (W, h) (0, top) ul lr)
      (pixel_to_point (W, h) (W, top + mb) ul lr))
      = fun column => colorAt (W, h) (column, top + r) ul lr := by
    funext column
    rw [colorAt, colorAt, pixel_to_point_band W h mb top hW hh hmb ul lr column r]
  rw [this]

/-- A band rendered from its recomputed corners is exactly the slice of
    whole-image rows `[top, top + mb)`. -/
theorem flatRender_band (W h mb top : ℕ) (hW : W ≠ 0) (hh : h ≠ 0) (hmb : mb ≠ 0)
    (ul lr : Qplx) :
    flatRender (W, mb)
      (pixel_to_point (W, h) (0, top) ul lr)
      (pixel_to_point (W, h) (W, top + mb) ul lr)
    = (List.range' top mb).flatMap (rowPixels (W, h) ul lr) := by
  rw [flatRender, List.range'_eq_map_range, List.flatMap_map]
  have heq : rowPixels (W, mb)
      (pixel_to_point (W, h) (0, top) ul lr)
      (pixel_to_point (W, h) (W, top + mb) ul lr)
      = fun r => rowPixels (W, h) ul lr (top + r) :=
    funext fun r => rowPixels_band W h mb top hW hh hmb ul lr r
  rw [heq]

/-- Assembly of chunked computations: if applying `F` to each chunk of a
    `W * m`-element buffer (indexed from `j`) yields `g` of the chunk's
    row interval, and `g` glues along adjacent intervals, then the
    concatenation over all chunks is `g` of the whole interval. -/
theorem chunks_assemble {α : Type} (W rpb : ℕ) (hW : W ≠ 0) (hrpb : rpb ≠ 0)
    (F : ℕ → List Pixel → List α) (g : ℕ → ℕ → List α)
    (hF : ∀ (j : ℕ) (b : List Pixel) (mb : ℕ), mb ≠ 0 → mb ≤ rpb →
      b.length = W * mb → F j b = g (rpb * j) mb)
    (hg : ∀ a m n, g a m ++ g (a + m) n = g a (m + n))
    (hg0 : ∀ a, g a 0 = []) :
    ∀ (n m : ℕ) (buf : List Pixel) (j : ℕ), m ≤ n → buf.length = W * m →
      ((List.enumFrom j (chunksList (rpb * W) buf)).map fun p => F p.1 p.2).flatten
        = g (rpb * j) m := by
  intro n
  induction n with
  | zero =>
    intro m buf j hm hlen
    have hm0 : m = 0 := by omega
    subst hm0
    have hbuf : buf = [] := List.eq_nil_of_length_eq_zero (by simp [hlen])
    subst hbuf
    simp [chunksList_nil, hg0]
  | succ n ih =>
    intro m buf j hm hlen
    rcases Nat.eq_zero_or_pos m with rfl | hmpos
    · have hbuf : buf = [] := List.eq_nil_of_length_eq_zero (by simp [hlen])
      subst hbuf
      simp [chunksList_nil, hg0]
    · have hbufne : buf ≠ [] := by
        intro hc
        rw [hc] at hlen
        simp only [List.length_nil] at hlen
        rcases Nat.mul_eq_zero.mp hlen.symm with hz | hz <;> omega
      have hk0 : rpb * W ≠ 0 := Nat.mul_ne_zero hrpb hW
      rw [chunksList_cons (rpb * W) buf hbufne hk0, List.enumFrom_cons]
      simp only [List.map_cons, List.flatten_cons]
      have hminmul : min (rpb * W) (W * m) = W * min rpb m := by
        rw [Nat.mul_comm rpb W, Nat.mul_min_mul_left]
      have htklen : (buf.take (rpb * W)).length = W * min rpb m := by
        rw [List.length_take, hlen, hminmul]
      have hsub : W * (m - rpb) = W * m - rpb * W := by
        rw [Nat.mul_comm W (m - rpb), Nat.sub_mul, Nat.mul_comm m W, Nat.mul_comm rpb W]
      have hdroplen : (buf.drop (rpb * W)).length = W * (m - rpb) := by
        rw [List.length_drop, hlen]
        omega
      have hmbne : min rpb m ≠ 0 := by
        have h1 : 0 < rpb := Nat.pos_of_ne_zero hrpb
        omega
      rw [hF j (buf.take (rpb * W)) (min rpb m) hmbne (by omega) htklen,
        ih (m - rpb) (buf.drop (rpb * W)) (j + 1) (by omega) hdroplen]
      rcases le_or_lt m rpb with hle | hlt
      · have hmb_eq : min rpb m = m := by omega
        have hz : m - rpb = 0 := by omega
        rw [hmb_eq, hz, hg0, List.append_nil]
      · have hmb_eq : min rpb m = rpb := by omega
        have h1 : rpb * (j + 1) = rpb * j + rpb := by ring
        rw [hmb_eq, h1, hg (rpb * j) rpb (m - rpb)]
        congr 1
        omega

theorem chunksList_length_dvd (W rpb : ℕ) (hW : W ≠ 0) (hrpb : rpb ≠ 0) :
    ∀ (n m : ℕ) (buf : List Pixel), m ≤ n → buf.length = W * m →
      ∀ b ∈ chunksList (rpb * W) buf, W ∣ b.length := by
  intro n
  induction n with
  | zero =>
    intro m buf hm hlen b hb
    have hm0 : m = 0 := by omega
    subst hm0
    have hbuf : buf = [] := List.eq_nil_of_length_eq_zero (by simp [hlen])
    subst hbuf
    rw [chunksList_nil] at hb
    exact absurd hb (List.not_mem_nil b)
  | succ n ih =>
    intro m buf hm hlen b hb
    rcases Nat.eq_zero_or_pos m with rfl | hmpos
    · have hbuf : buf = [] := List.eq_nil_of_length_eq_zero (by simp [hlen])
      subst hbuf
      rw [chunksList_nil] at hb
      exact absurd hb (List.not_mem_nil b)
    · have hbufne : buf ≠ [] := by
        intro hc
        rw [hc] at hlen
        simp only [List.length_nil] at hlen
        rcases Nat.mul_eq_zero.mp hlen.symm with hz | hz <;> omega
      have hk0 : rpb * W ≠ 0 := Nat.mul_ne_zero hrpb hW
      rw [chunksList_cons (rpb * W) buf hbufne hk0] at hb
      have hminmul : min (rpb * W) (W * m) = W * min rpb m := by
        rw [Nat.mul_comm rpb W, Nat.mul_min_mul_left]
      have hsub : W * (m - rpb) = W * m - rpb * W := by
        rw [Nat.mul_comm W (m - rpb), Nat.sub_mul, Nat.mul_comm m W, Nat.mul_comm rpb W]
      rcases List.mem_cons.mp hb with rfl | htail
      · exact ⟨min rpb m, by rw [List.length_take, hlen, hminmul]⟩
      · exact ih (m - rpb) (buf.drop (rpb * W)) (by omega)
          (by rw [List.length_drop, hlen]; omega) b htail

/-- C4: for positive bounds and worker count, the scheduler's bands
    concatenate back to the pixel buffer in order, every band's element
    count is a multiple of the width, the counts sum to
    `width * height`, and the bands' row ranges
    `[rows_per_band * i, rows_per_band * i + bandHeight)` tile `[0, height)`
    consecutively with no gaps or overlaps. -/
theorem partition_bands (W h t : ℕ) (buf : List Pixel) (hW : 0 < W) (hh : 0 < h)
    (ht : 0 < t) (hlen : buf.length = W * h) :
    (chunksList (rows_per_band h t * W) buf).flatten = buf ∧
    (∀ b ∈ chunksList (rows_per_band h t * W) buf, W ∣ b.length) ∧
    ((chunksList (rows_per_band h t * W) buf).map List.length).sum = W * h ∧
    ((chunksList (rows_per_band h t * W) buf).enum.map fun p =>
        List.range' (rows_per_band h t * p.1) (p.2.length / W)).flatten = List.range h := by
  have hW0 : W ≠ 0 := by omega
  have hrpb : rows_per_band h t ≠ 0 := Nat.succ_ne_zero (h / t)
  have hk0 : rows_per_band h t * W ≠ 0 := Nat.mul_ne_zero hrpb hW0
  have hflat : (chunksList (rows_per_band h t * W) buf).flatten = buf :=
    chunksList_flatten (rows_per_band h t * W) hk0 buf
  refine ⟨hflat, ?_, ?_, ?_⟩
  · exact chunksList_length_dvd W (rows_per_band h t) hW0 hrpb h h buf (le_refl h) hlen
  · rw [← List.length_flatten, hflat, hlen]
  · rw [List.enum_eq_enumFrom]
    have := chunks_assemble W (rows_per_band h t) hW0 hrpb
      (fun j b => List.range' (rows_per_band h t * j) (b.length / W))
      (fun a m => List.range' a m)
      (fun j b mb hmb hle hblen => by
        show List.range' (rows_per_band h t * j) (b.length / W)
          = List.range' (rows_per_band h t * j) mb
        rw [hblen, Nat.mul_div_cancel_left mb (by omega)])
      (fun a m n => by
        have h1 := List.range'_append a m n 1
        simp only [one_mul] at h1
        rw [h1, Nat.add_comm n m])
      (fun a => rfl)
      h h buf 0 (le_refl h) hlen
    simp only [Nat.mul_zero] at this
    rw [this, ← List.range_eq_range']

/-- C4 witness: a 2×3 image chunked for 2 workers. -/
theorem partition_bands_witness :
    0 < 2 ∧ 0 < 3 ∧ 0 < 2 ∧ (List.replicate 6 ((0, 0, 0) : Pixel)).length = 2 * 3 ∧
    ((chunksList (rows_per_band 3 2 * 2) (List.replicate 6 ((0, 0, 0) : Pixel))).flatten
        = List.replicate 6 ((0, 0, 0) : Pixel) ∧
     (∀ b ∈ chunksList (rows_per_band 3 2 * 2) (List.replicate 6 ((0, 0, 0) : Pixel)),
        2 ∣ b.length) ∧
     ((chunksList (rows_per_band 3 2 * 2) (List.replicate 6 ((0, 0, 0) : Pixel))).map
        List.length).sum = 2 * 3 ∧
     ((chunksList (rows_per_band 3 2 * 2) (List.replicate 6 ((0, 0, 0) : Pixel))).enum.map
        fun p => List.range' (rows_per_band 3 2 * p.1) (p.2.length / 2)).flatten
          = List.range 3) :=
  ⟨by decide, by decide, by decide, by simp,
    partition_bands 2 3 2 (List.replicate 6 ((0, 0, 0) : Pixel))
      (by decide) (by decide) (by decide) (by simp)⟩

/-- For any worker count, the banded pipeline computes exactly the
    whole-image `render` of the zero-initialized buffer. -/
theorem renderParallel_eq_render (W h : ℕ) (ul lr : Qplx) (t : ℕ)
    (hW : 0 < W) (hh : 0 < h) :
    renderParallel (W, h) ul lr t
      = render (List.replicate (W * h) ((0, 0, 0) : Pixel)) (W, h) ul lr := by
  have hW0 : W ≠ 0 := by omega
  have hh0 : h ≠ 0 := by omega
  have hrpb : rows_per_band h t ≠ 0 := Nat.succ_ne_zero (h / t)
  rw [renderParallel]
  simp only [List.enum_eq_enumFrom]
  have hmain := chunks_assemble W (rows_per_band h t) hW0 hrpb
    (fun j b => render b (W, b.length / W)
      (pixel_to_point (W, h) (0, rows_per_band h t * j) ul lr)
      (pixel_to_point (W, h) (W, rows_per_band h t * j + b.length / W) ul lr))
    (fun a m => (List.range' a m).flatMap (rowPixels (W, h) ul lr))
    (fun j b mb hmb hle hblen => by
      have hdiv : b.length / W = mb := by
        rw [hblen, Nat.mul_div_cancel_left mb (by omega)]
      simp only [hdiv]
      rw [render_eq_flatRender W mb
            (pixel_to_point (W, h) (0, rows_per_band h t * j) ul lr)
            (pixel_to_point (W, h) (W, rows_per_band h t * j + mb) ul lr) b hblen,
          flatRender_band W h mb (rows_per_band h t * j) hW0 hh0 hmb ul lr])
    (fun a m n => by
      rw [← List.flatMap_append]
      have h1 := List.range'_append a m n 1
      simp only [one_mul] at h1
      rw [h1, Nat.add_comm n m])
    (fun a => rfl)
    h h (List.replicate (W * h) ((0, 0, 0) : Pixel)) 0 (le_refl h) (by simp)
  simp only [Nat.mul_zero] at hmain
  rw [hmain, render_eq_flatRender W h ul lr (List.replicate (W * h) ((0, 0, 0) : Pixel)) (by simp),
    flatRender, List.range_eq_range']

/-- Parallelism transparency over the exact-rational embedding:
    with exactly computed band corners, worker counts 1 and 8 produce the
    same buffer.  Like `pixel_to_point_corners`, this holds only of the
    idealized arithmetic: under `f64` the banded and whole-image
    pipelines round different intermediate expressions (the band corners
    at rows `top` and `top + bandHeight`), so byte-identity of the real
    program's buffers is not established by this lemma. -/
theorem render_parallel_transparent (W h : ℕ) (ul lr : Qplx)
    (hW : 0 < W) (hh : 0 < h) :
    renderParallel (W, h) ul lr 1 = renderParallel (W, h) ul lr 8 := by
  rw [renderParallel_eq_render W h ul lr 1 hW hh,
    renderParallel_eq_render W h ul lr 8 hW hh]

theorem exp_gauss_lb : (13607 / 10000 : ℝ) ≤ Real.exp (34656769 / 112500000) := by
  have h0 : (0:ℝ) ≤ 34656769 / 112500000 := by norm_num
  refine le_trans ?_ (Real.sum_le_exp_of_nonneg h0 8)
  simp only [Finset.sum_range_succ, Finset.sum_range_zero]
  norm_num [Nat.factorial]

theorem exp_gauss_ub : Real.exp (34656769 / 112500000) ≤ (13609 / 10000 : ℝ) := by
  have hx : |(34656769 / 112500000 : ℝ)| ≤ 1 := by
    rw [abs_of_nonneg (by norm_num)]
    norm_num
  have hb := @Real.exp_bound (34656769 / 112500000 : ℝ) hx 8 (by norm_num)
  have h2 := (abs_le.mp hb).2
  have hmono : Real.exp (34656769 / 112500000 : ℝ)
      ≤ (∑ m ∈ Finset.range 8, (34656769 / 112500000 : ℝ) ^ m / m.factorial)
        + |(34656769 / 112500000 : ℝ)| ^ 8 * ((8:ℕ).succ / ((8:ℕ).factorial * 8)) := by
    linarith
  refine le_trans hmono ?_
  rw [abs_of_nonneg (by norm_num : (0:ℝ) ≤ 34656769 / 112500000)]
  simp only [Finset.sum_range_succ, Finset.sum_range_zero]
  norm_num [Nat.factorial]

theorem castU8_eq_of_bounds (v : ℝ) (n : ℕ) (hn : n < 255) (h1 : (n : ℝ) ≤ v)
    (h2 : v < n + 1) : castU8 v = n := by
  rw [castU8]
  rcases le_or_lt v 0 with hv | hv
  · rw [if_pos hv]
    have hn0 : (n : ℝ) ≤ 0 := le_trans h1 hv
    have : (n : ℝ) = 0 := le_antisymm hn0 (Nat.cast_nonneg n)
    exact_mod_cast this.symm
  · rw [if_neg (not_le.mpr hv)]
    have hcast : ((n : ℝ) + 1) ≤ 255 := by
      have : (n + 1 : ℕ) ≤ 255 := by omega
      exact_mod_cast this
    have hlt : v < 255 := lt_of_lt_of_le h2 hcast
    rw [if_neg (not_le.mpr hlt)]
    have hfl : ⌊v⌋ = (n : ℤ) := by
      rw [Int.floor_eq_iff]
      constructor
      · exact_mod_cast h1
      · push_cast
        exact h2
    rw [hfl]
    simp

theorem castU8_ge255 (v : ℝ) (h : (255:ℝ) ≤ v) : castU8 v = 255 := by
  rw [castU8, if_neg (by linarith), if_pos h]

theorem chanValPow (k n : ℕ) (hn : n < 255)
    (hub : (n:ℝ) * (13609/10000)^k ≤ 255)
    (hlb : (255:ℝ) < ((n:ℝ)+1) * (13607/10000)^k) :
    castU8 ((255:ℝ) * Real.exp (-((k:ℝ) * (34656769 / 112500000)))) = n := by
  have hE := Real.exp_pos (34656769 / 112500000 : ℝ)
  have hEk : 0 < Real.exp (34656769 / 112500000 : ℝ) ^ k := pow_pos hE k
  have hexp : Real.exp (-((k:ℝ) * (34656769 / 112500000)))
      = (Real.exp (34656769 / 112500000 : ℝ) ^ k)⁻¹ := by
    rw [Real.exp_neg, Real.exp_nat_mul]
  rw [hexp]
  have hpow_ub : Real.exp (34656769 / 112500000 : ℝ) ^ k ≤ (13609/10000:ℝ)^k :=
    pow_le_pow_left₀ hE.le exp_gauss_ub k
  have hpow_lb : (13607/10000:ℝ)^k ≤ Real.exp (34656769 / 112500000 : ℝ) ^ k :=
    pow_le_pow_left₀ (by norm_num) exp_gauss_lb k
  apply castU8_eq_of_bounds _ n hn
  · rw [← div_eq_mul_inv, le_div_iff₀ hEk]
    calc (n:ℝ) * Real.exp (34656769 / 112500000) ^ k
        ≤ (n:ℝ) * (13609/10000)^k :=
          mul_le_mul_of_nonneg_left hpow_ub (Nat.cast_nonneg n)
      _ ≤ 255 := hub
  · rw [← div_eq_mul_inv, div_lt_iff₀ hEk]
    calc (255:ℝ) < ((n:ℝ)+1) * (13607/10000)^k := hlb
      _ ≤ ((n:ℝ)+1) * Real.exp (34656769 / 112500000) ^ k :=
          mul_le_mul_of_nonneg_left hpow_lb (by positivity)

theorem chanVal1 : castU8 ((255:ℝ) * Real.exp (-(1 * (34656769 / 112500000)))) = 187 := by
  have h := chanValPow 1 187 (by norm_num) (by norm_num) (by norm_num)
  simpa using h

theorem chanVal4 : castU8 ((255:ℝ) * Real.exp (-(4 * (34656769 / 112500000)))) = 74 := by
  have h := chanValPow 4 74 (by norm_num) (by norm_num) (by norm_num)
  simpa using h

theorem chanVal9 : castU8 ((255:ℝ) * Real.exp (-(9 * (34656769 / 112500000)))) = 15 := by
  have h := chanValPow 9 15 (by norm_num) (by norm_num) (by norm_num)
  simpa using h

theorem chanVal16 : castU8 ((255:ℝ) * Real.exp (-(16 * (34656769 / 112500000)))) = 1 := by
  have h := chanValPow 16 1 (by norm_num) (by norm_num) (by norm_num)
  simpa using h

theorem chanVal0 : castU8 ((255:ℝ) * Real.exp (-(0:ℝ))) = 255 := by
  rw [neg_zero, Real.exp_zero, mul_one]
  exact castU8_ge255 255 (le_refl _)

/-- The scaled Gaussian density collapses to `L * exp(-(x-mu)^2/(2 s^2))`:
    the scale's `sqrt(2 pi s^2)` cancels the density's normalization. -/
theorem scale_density (L : ℝ) (s : ℝ) (hs : 0 < s) (mu x : ℝ) :
    L * Real.sqrt (2 * Real.pi * s ^ 2) * gaussianDensity mu s x
      = L * Real.exp (-((x - mu) ^ 2 / (2 * s ^ 2))) := by
  rw [gaussianDensity, Real.sqrt_mul (by positivity : (0:ℝ) ≤ 2 * Real.pi), Real.sqrt_sq hs.le]
  have hpi : (0:ℝ) < Real.sqrt (2 * Real.pi) := Real.sqrt_pos.mpr (by positivity)
  field_simp
  ring

/-- C6: at limit 255, `calculate_rgb` reproduces the reference color table
    bit-for-bit. -/
theorem calculate_rgb_reference :
    calculate_rgb 255 42.5 = (1, 74, 255) ∧
    calculate_rgb 255 127.5 = (74, 255, 74) ∧
    calculate_rgb 255 212.5 = (255, 74, 1) ∧
    calculate_rgb 255 85 = (15, 187, 187) := by
  have hs : 0 < sigmaOf 255 := by
    rw [sigmaOf, fwhmOf]
    norm_num
  have hchan : ∀ mu x : ℝ, scaleOf 255 * gaussianDensity mu (sigmaOf 255) x
      = 255 * Real.exp (-((x - mu) ^ 2 / (2 * sigmaOf 255 ^ 2))) := by
    intro mu x
    rw [scaleOf, scale_density _ _ hs mu x]
    norm_num
  have hbR : basePointRed 255 = 212.5 := by
    rw [basePointRed, basePointGreen, basePointBlue]; norm_num
  have hbG : basePointGreen 255 = 127.5 := by
    rw [basePointGreen, basePointBlue]; norm_num
  have hbB : basePointBlue 255 = 42.5 := by
    rw [basePointBlue]; norm_num
  have hsig : sigmaOf 255 = (255 / 2) / 2.3548 := by
    rw [sigmaOf, fwhmOf]; norm_num
  refine ⟨?_, ?_, ?_, ?_⟩ <;>
    rw [calculate_rgb, hchan, hchan, hchan, hbR, hbG, hbB, hsig]
  · rw [show ((42.5:ℝ) - 212.5) ^ 2 / (2 * ((255 / 2) / 2.3548) ^ 2)
        = 16 * (34656769 / 112500000) by norm_num,
      show ((42.5:ℝ) - 127.5) ^ 2 / (2 * ((255 / 2) / 2.3548) ^ 2)
        = 4 * (34656769 / 112500000) by norm_num,
      show ((42.5:ℝ) - 42.5) ^ 2 / (2 * ((255 / 2) / 2.3548) ^ 2) = 0 by norm_num,
      chanVal16, chanVal4, chanVal0]
  · rw [show ((127.5:ℝ) - 212.5) ^ 2 / (2 * ((255 / 2) / 2.3548) ^ 2)
        = 4 * (34656769 / 112500000) by norm_num,
      show ((127.5:ℝ) - 127.5) ^ 2 / (2 * ((255 / 2) / 2.3548) ^ 2) = 0 by norm_num,
      show ((127.5:ℝ) - 42.5) ^ 2 / (2 * ((255 / 2) / 2.3548) ^ 2)
        = 4 * (34656769 / 112500000) by norm_num,
      chanVal4, chanVal0]
  · rw [show ((212.5:ℝ) - 212.5) ^ 2 / (2 * ((255 / 2) / 2.3548) ^ 2) = 0 by norm_num,
      show ((212.5:ℝ) - 127.5) ^ 2 / (2 * ((255 / 2) / 2.3548) ^ 2)
        = 4 * (34656769 / 112500000) by norm_num,
      show ((212.5:ℝ) - 42.5) ^ 2 / (2 * ((255 / 2) / 2.3548) ^ 2)
        = 16 * (34656769 / 112500000) by norm_num,
      chanVal0, chanVal4, chanVal16]
  · rw [show ((85:ℝ) - 212.5) ^ 2 / (2 * ((255 / 2) / 2.3548) ^ 2)
        = 9 * (34656769 / 112500000) by norm_num,
      show ((85:ℝ) - 127.5) ^ 2 / (2 * ((255 / 2) / 2.3548) ^ 2)
        = 1 * (34656769 / 112500000) by norm_num,
      show ((85:ℝ) - 42.5) ^ 2 / (2 * ((255 / 2) / 2.3548) ^ 2)
        = 1 * (34656769 / 112500000) by norm_num,
      chanVal9, chanVal1]
